import Mathlib

/-!
Shallow embedding of the KPI dashboard (src/streamlit_kpi_dashboard.py).

The program loads a table, coerces a chosen date column, computes KPI scalars
(total, mean, latest, previous, delta), a grouped top-10 ranking, and a
two-sheet spreadsheet report.  Cell values are modelled by `Value` (text,
rational number, or null, where null stands for the missing value NaN of the
tabular engine).  Machine floats are modelled by rationals.  The sorting
routine of the tabular engine (sort_values with its default quicksort kernel)
guarantees a permutation of the input ordered by the key, but fixes no
relative order among tied keys; the embedding realizes it as one concrete
sorted permutation (an insertion sort).  Universal theorems about the sorted
output therefore assert only properties that hold for every key-sorted
permutation — sortedness, membership, length, sums — never a tie order.
Concrete evaluations are used only on inputs small enough to fall below the
kernel's insertion-sort cutoff, where the engine coincides with this model.
-/

namespace Dash

/-- A cell value: text, numeric (rationals model floats), or missing (NaN). -/
inductive Value : Type
  | str (s : String)
  | num (q : ℚ)
  | null
  deriving DecidableEq, Repr

/-- A row is a finite mapping from column name to value, as an association list. -/
abbrev Row : Type := List (String × Value)

/-- A table: column names plus an ordered list of rows. -/
structure Table : Type where
  cols : List String
  rows : List Row
  deriving DecidableEq, Repr

/-- Reading the cell of row `r` at column `c`; a missing entry is the null value. -/
def getCell (r : Row) (c : String) : Value :=
  (r.lookup c).getD Value.null

/-- Writing the cell of row `r` at column `c` (used by the date-column coercion). -/
def setCell (r : Row) (c : String) (v : Value) : Row :=
  r.map (fun p => if p.1 = c then (c, v) else p)

/-- Numeric view of a value: `some q` on numbers, `none` on text and null.
The tabular engine skips missing values when summing and averaging. -/
def asNum : Value → Option ℚ
  | .num q => some q
  | _ => none

/-- Numeric value with default 0, used where the code reads a scalar cell.
In the program a missing cell would propagate NaN through such reads; NaN
float semantics are outside the rational model, so every theorem reading a
scalar cell carries the hypothesis that the cell is present. -/
def numValD (v : Value) : ℚ :=
  (asNum v).getD 0

/-- Lexicographic comparison of character lists (the order on text cells). -/
def charListLe : List Char → List Char → Bool
  | [], _ => true
  | _ :: _, [] => false
  | a :: as, b :: bs => if a = b then charListLe as bs else decide (a < b)

theorem charListLe_refl (l : List Char) : charListLe l l = true := by
  induction l with
  | nil => rfl
  | cons a l ih => simpa [charListLe] using ih

theorem charListLe_total (l m : List Char) :
    charListLe l m = true ∨ charListLe m l = true := by
  induction l generalizing m with
  | nil => left; rfl
  | cons a as ih =>
    cases m with
    | nil => right; rfl
    | cons b bs =>
      by_cases hab : a = b
      · subst hab
        simpa [charListLe] using ih bs
      · have hba : b ≠ a := fun h => hab h.symm
        simpa [charListLe, hab, hba, decide_eq_true_eq] using lt_or_gt_of_ne hab

theorem charListLe_antisymm {l m : List Char}
    (h1 : charListLe l m = true) (h2 : charListLe m l = true) : l = m := by
  induction l generalizing m with
  | nil =>
    cases m with
    | nil => rfl
    | cons b bs => simp [charListLe] at h2
  | cons a as ih =>
    cases m with
    | nil => simp [charListLe] at h1
    | cons b bs =>
      by_cases hab : a = b
      · subst hab
        simp only [charListLe, if_pos rfl] at h1 h2
        rw [ih h1 h2]
      · have hba : b ≠ a := fun h => hab h.symm
        simp only [charListLe, if_neg hab, if_neg hba, decide_eq_true_eq] at h1 h2
        exact absurd h2 (lt_asymm h1)

theorem charListLe_trans {l m n : List Char}
    (h1 : charListLe l m = true) (h2 : charListLe m n = true) :
    charListLe l n = true := by
  induction l generalizing m n with
  | nil => rfl
  | cons a as ih =>
    cases m with
    | nil => simp [charListLe] at h1
    | cons b bs =>
      cases n with
      | nil => simp [charListLe] at h2
      | cons c cs =>
        by_cases hab : a = b <;> by_cases hbc : b = c
        · subst hab; subst hbc
          simp only [charListLe, if_pos rfl] at h1 h2 ⊢
          exact ih h1 h2
        · subst hab
          simp only [charListLe, if_pos rfl] at h1
          simpa [charListLe, hbc] using (by simpa [charListLe, hbc] using h2)
        · subst hbc
          simp only [charListLe, hab] at h1
          simpa [charListLe, hab] using h1
        · simp only [charListLe] at h1 h2 ⊢
          rw [if_neg hab, decide_eq_true_eq] at h1
          rw [if_neg hbc, decide_eq_true_eq] at h2
          have hac : a ≠ c := fun h => lt_asymm h1 (by rw [h]; exact h2)
          rw [if_neg hac, decide_eq_true_eq]
          exact lt_trans h1 h2

/-- String comparison used for ordering text cells. -/
def strLe (a b : String) : Bool :=
  charListLe a.data b.data

theorem strLe_antisymm {a b : String}
    (h1 : strLe a b = true) (h2 : strLe b a = true) : a = b := by
  cases a with
  | mk l =>
    cases b with
    | mk m =>
      have h := charListLe_antisymm (l := l) (m := m) h1 h2
      rw [h]

/-- Rank used to order values of different kinds against each other; missing
values rank last, as the engine places them (na_position defaults to last). -/
def valRank : Value → Nat
  | .num _ => 1
  | .str _ => 2
  | .null => 3

/-- Total comparison on cell values: numbers by numeric order, text by
lexicographic string order, values of different kinds by their rank. -/
def valLe (v w : Value) : Bool :=
  match v, w with
  | .num a, .num b => decide (a ≤ b)
  | .str a, .str b => strLe a b
  | _, _ => decide (valRank v ≤ valRank w)

theorem valLe_refl (v : Value) : valLe v v = true := by
  cases v <;>
    first
    | exact charListLe_refl _
    | simp only [valLe, decide_eq_true_eq] <;> exact le_refl _

theorem valLe_total (v w : Value) : valLe v w = true ∨ valLe w v = true := by
  cases v <;> cases w <;>
    simp only [valLe, valRank, decide_eq_true_eq] <;>
    first
    | exact le_total _ _
    | exact charListLe_total _ _
    | omega

theorem valLe_antisymm {v w : Value} (h1 : valLe v w = true) (h2 : valLe w v = true) :
    v = w := by
  cases v <;> cases w <;>
    simp only [valLe, valRank, decide_eq_true_eq] at h1 h2 <;>
    first
    | rfl
    | exact absurd h1 (by decide)
    | exact absurd h2 (by decide)
    | rw [le_antisymm h1 h2]
    | rw [strLe_antisymm h1 h2]

theorem valLe_trans {u v w : Value} (h1 : valLe u v = true) (h2 : valLe v w = true) :
    valLe u w = true := by
  cases u <;> cases v <;> cases w <;>
    simp only [valLe, valRank, decide_eq_true_eq] at h1 h2 ⊢ <;>
    first
    | exact le_trans h1 h2
    | exact charListLe_trans h1 h2
    | omega
    | trivial

/-- Lexicographic comparison of group keys (tuples of cell values). -/
def listValLe : List Value → List Value → Bool
  | [], _ => true
  | _ :: _, [] => false
  | a :: as, b :: bs => if a = b then listValLe as bs else valLe a b

theorem listValLe_total (ks ls : List Value) :
    listValLe ks ls = true ∨ listValLe ls ks = true := by
  induction ks generalizing ls with
  | nil => left; rfl
  | cons a as ih =>
    cases ls with
    | nil => right; rfl
    | cons b bs =>
      by_cases hab : a = b
      · subst hab
        simpa [listValLe] using ih bs
      · have hba : b ≠ a := fun h => hab h.symm
        simpa [listValLe, hab, hba] using valLe_total a b

theorem listValLe_trans {ks ls ms : List Value}
    (h1 : listValLe ks ls = true) (h2 : listValLe ls ms = true) :
    listValLe ks ms = true := by
  induction ks generalizing ls ms with
  | nil => rfl
  | cons a as ih =>
    cases ls with
    | nil => simp [listValLe] at h1
    | cons b bs =>
      cases ms with
      | nil => simp [listValLe] at h2
      | cons c cs =>
        by_cases hab : a = b <;> by_cases hbc : b = c
        · subst hab; subst hbc
          simp only [listValLe, if_pos rfl] at h1 h2 ⊢
          exact ih h1 h2
        · subst hab
          simp only [listValLe, if_pos rfl] at h1
          simpa [listValLe, hbc] using (by simpa [listValLe, hbc] using h2)
        · subst hbc
          simp only [listValLe, hab] at h1
          simpa [listValLe, hab] using h1
        · simp only [listValLe, hab] at h1
          simp only [listValLe, hbc] at h2
          by_cases hac : a = c
          · subst hac
            exact absurd (valLe_antisymm h1 h2) hab
          · simpa [listValLe, hac] using valLe_trans h1 h2

/-- Insertion step of the sort below. -/
def insertSorted (le : α → α → Bool) (a : α) : List α → List α
  | [] => [a]
  | b :: l => if le a b then a :: b :: l else b :: insertSorted le a l

/-- Insertion sort by a boolean comparison: the concrete key-sorted
permutation through which the engine's sort_values is embedded.  The engine's
default sort kernel promises a sorted permutation but no particular order
among tied keys, so theorems about the program only use consequences that
hold for every key-sorted permutation of the input. -/
def sortBy (le : α → α → Bool) : List α → List α
  | [] => []
  | a :: l => insertSorted le a (sortBy le l)

theorem insertSorted_perm (le : α → α → Bool) (a : α) (l : List α) :
    List.Perm (insertSorted le a l) (a :: l) := by
  induction l with
  | nil => exact List.Perm.refl _
  | cons b l ih =>
    simp only [insertSorted]
    split
    · exact List.Perm.refl _
    · exact (ih.cons b).trans (List.Perm.swap a b l)

theorem sortBy_perm (le : α → α → Bool) (l : List α) : List.Perm (sortBy le l) l := by
  induction l with
  | nil => exact List.Perm.refl _
  | cons a l ih => exact (insertSorted_perm le a (sortBy le l)).trans (ih.cons a)

theorem mem_insertSorted {le : α → α → Bool} {a x : α} {l : List α} :
    x ∈ insertSorted le a l ↔ x = a ∨ x ∈ l := by
  have h := (insertSorted_perm le a l).mem_iff (a := x)
  simpa using h

theorem insertSorted_pairwise {le : α → α → Bool}
    (htot : ∀ a b, le a b = true ∨ le b a = true)
    (htrans : ∀ a b c, le a b = true → le b c = true → le a c = true)
    {a : α} {l : List α} (h : l.Pairwise (fun x y => le x y = true)) :
    (insertSorted le a l).Pairwise (fun x y => le x y = true) := by
  induction l with
  | nil => simp [insertSorted]
  | cons b l ih =>
    simp only [insertSorted]
    split
    · rename_i hab
      refine List.Pairwise.cons ?_ h
      intro x hx
      rcases List.mem_cons.mp hx with rfl | hx
      · exact hab
      · exact htrans a b x hab (List.rel_of_pairwise_cons h hx)
    · rename_i hab
      have hba : le b a = true := by
        rcases htot a b with h1 | h1
        · exact absurd h1 hab
        · exact h1
      refine List.Pairwise.cons ?_ (ih (List.Pairwise.of_cons h))
      intro x hx
      rcases mem_insertSorted.mp hx with rfl | hx
      · exact hba
      · exact List.rel_of_pairwise_cons h hx

theorem sortBy_pairwise {le : α → α → Bool}
    (htot : ∀ a b, le a b = true ∨ le b a = true)
    (htrans : ∀ a b c, le a b = true → le b c = true → le a c = true)
    (l : List α) :
    (sortBy le l).Pairwise (fun x y => le x y = true) := by
  induction l with
  | nil => simp [sortBy]
  | cons a l ih => exact insertSorted_pairwise htot htrans ih

/-- First-appearance deduplication (keeps the first occurrence of each element,
skipping those already seen). -/
def uniqueFirst [DecidableEq α] (seen : List α) : List α → List α
  | [] => []
  | a :: l => if a ∈ seen then uniqueFirst seen l else a :: uniqueFirst (a :: seen) l

theorem mem_uniqueFirst [DecidableEq α] {x : α} {l seen : List α} :
    x ∈ uniqueFirst seen l ↔ x ∈ l ∧ x ∉ seen := by
  induction l generalizing seen with
  | nil => simp [uniqueFirst]
  | cons a l ih =>
    simp only [uniqueFirst]
    split
    · rename_i hmem
      rw [ih]
      constructor
      · rintro ⟨hx, hs⟩
        exact ⟨List.mem_cons_of_mem a hx, hs⟩
      · rintro ⟨hx, hs⟩
        rcases List.mem_cons.mp hx with hx | hx
        · exact absurd (hx ▸ hmem) hs
        · exact ⟨hx, hs⟩
    · rename_i hmem
      simp only [List.mem_cons, ih, List.mem_cons]
      constructor
      · rintro (hx | ⟨hx, hs⟩)
        · exact ⟨Or.inl hx, hx ▸ hmem⟩
        · exact ⟨Or.inr hx, fun hsx => hs (Or.inr hsx)⟩
      · rintro ⟨hx | hx, hs⟩
        · exact Or.inl hx
        · by_cases hxa : x = a
          · exact Or.inl hxa
          · exact Or.inr ⟨hx, fun hsx => hs (by simp_all)⟩

theorem nodup_uniqueFirst [DecidableEq α] (seen l : List α) :
    (uniqueFirst seen l).Nodup := by
  induction l generalizing seen with
  | nil => simp [uniqueFirst]
  | cons a l ih =>
    simp only [uniqueFirst]
    split
    · exact ih seen
    · refine List.Nodup.cons ?_ (ih (a :: seen))
      intro hmem
      exact (mem_uniqueFirst.mp hmem).2 (List.mem_cons_self a seen)

/-!
## The embedded program

What follows translates, component by component, the core of
src/streamlit_kpi_dashboard.py.
-/

/-- Rational addition written through `mkRat`; provably equal to `+` and
evaluable by the kernel on concrete inputs. -/
def qAdd (a b : ℚ) : ℚ :=
  mkRat (a.num * b.den + b.num * a.den) (a.den * b.den)

theorem qAdd_eq_add (a b : ℚ) : qAdd a b = a + b :=
  (Rat.add_def' a b).symm

/-- Summation of the numeric entries of a column, as the engine performs it. -/
def qSum : List ℚ → ℚ
  | [] => 0
  | a :: l => qAdd a (qSum l)

theorem qSum_eq_sum (l : List ℚ) : qSum l = l.sum := by
  induction l with
  | nil => rfl
  | cons a l ih => rw [qSum, qAdd_eq_add, ih, List.sum_cons]

/-- The date-column coercion of one cell.  Models the timestamp parser of the
tabular engine on numeric epoch values, which the claims exercise; on text and
null it reports a parse failure.  (Calendar string parsing is a black-box
collaborator and is not needed by any claim.) -/
def toDatetime : Value → Option ℚ
  | .num q => some q
  | _ => none

/-- Coercion of one row: the date cell is replaced by its parsed timestamp. -/
def coerceRow (dateCol : String) (r : Row) : Option Row :=
  match toDatetime (getCell r dateCol) with
  | some q => some (setCell r dateCol (.num q))
  | none => none

/-- The body of get_data: copy the table and parse its date column
(df_copy[date_col] = pd.to_datetime(df_copy[date_col])).  `none` models the
TypeCoercionError raised when some row does not parse. -/
def coerceTable (df : Table) (dateCol : String) : Option Table :=
  (df.rows.mapM (coerceRow dateCol)).map (fun rs => Table.mk df.cols rs)

/-- The memoized get_data.  The memo decorator keys the cache on the function
arguments and source text only; get_data takes no arguments and reads df and
date_col from the enclosing scope, so the cache key does not depend on them:
a warm cache is returned unchanged whatever the current table is.  The state
is the cached coerced table; the result pairs the returned value (none models
a raised coercion error) with the new cache state. -/
def getData (cache : Option Table) (df : Table) (dateCol : String) :
    Option Table × Option Table :=
  match cache with
  | some t => (some t, some t)
  | none =>
    match coerceTable df dateCol with
    | some d => (some d, some d)
    | none => (none, none)

/-- Comparison of two rows by their (coerced) date cell, used by
sort_values(date_col). -/
def rowTimeLe (dateCol : String) (a b : Row) : Bool :=
  valLe (getCell a dateCol) (getCell b dateCol)

/-- sorted_data = data.sort_values(date_col): the rows ordered ascending by
the coerced time value.  The engine's default sort kernel fixes no relative
order among rows with equal time values, so this embedding realizes one
key-sorted permutation and no theorem about the program relies on which one.
Missing time values cannot reach this point: the coercion rejects them. -/
def sortedData (data : Table) (dateCol : String) : List Row :=
  sortBy (rowTimeLe dateCol) data.rows

/-- The numeric entries of the metric column, in row order.  The tabular
engine skips missing values when summing and averaging. -/
def colNums (data : Table) (valueCol : String) : List ℚ :=
  data.rows.filterMap (fun r => asNum (getCell r valueCol))

/-- total = data[value_col].sum() -/
def total (data : Table) (valueCol : String) : ℚ :=
  qSum (colNums data valueCol)

/-- mean = data[value_col].mean(): the sum divided by the number of
non-missing entries. -/
def mean (data : Table) (valueCol : String) : ℚ :=
  total data valueCol / ((colNums data valueCol).length : ℚ)

/-- The KPI summary: {total, mean, latest, prev, delta}. -/
structure KPISummary : Type where
  total : ℚ
  mean : ℚ
  latest : ℚ
  prev : ℚ
  delta : ℚ
  deriving DecidableEq, Repr

/-- Lines 84-89 of the source: total, mean, the last and second-to-last rows
of the time-sorted data, and their difference.  `none` models the indexing
error that sorted_data.iloc[-1] raises on an empty table. -/
def kpiSummary (data : Table) (dateCol valueCol : String) : Option KPISummary :=
  let s := sortedData data dateCol
  match s.getLast? with
  | none => none
  | some lastRow =>
    let latest := numValD (getCell lastRow valueCol)
    let prev :=
      if h : 1 < s.length then
        numValD (getCell (s.get ⟨s.length - 2, by omega⟩) valueCol)
      else latest
    some (KPISummary.mk (total data valueCol) (mean data valueCol)
      latest prev (latest - prev))

/-- The grouping key of one row: the tuple of its values at the grouping
columns, or `none` when some grouping value is missing (groupby drops such
rows by default). -/
def rowKey (groupCols : List String) (r : Row) : Option (List Value) :=
  if groupCols.all (fun c => !(getCell r c == Value.null)) then
    some (groupCols.map (fun c => getCell r c))
  else none

/-- The sum of the metric over the rows of one group (missing metric entries
are skipped by the summing engine). -/
def groupSum (rows : List Row) (groupCols : List String) (valueCol : String)
    (k : List Value) : ℚ :=
  qSum ((rows.filter (fun r => rowKey groupCols r == some k)).filterMap
    (fun r => asNum (getCell r valueCol)))

/-- data.groupby(group_cols)[value_col].sum().reset_index(): one pair
(key, summed metric) per distinct non-null key tuple, listed in ascending
lexicographic key order (groupby sorts group keys by default). -/
def groupbySum (data : Table) (groupCols : List String) (valueCol : String) :
    List (List Value × ℚ) :=
  (sortBy listValLe (uniqueFirst [] (data.rows.filterMap (rowKey groupCols)))).map
    (fun k => (k, groupSum data.rows groupCols valueCol k))

/-- Descending comparison on summed metrics, as used by
sort_values(value_col, ascending=False). -/
def sumGe (a b : List Value × ℚ) : Bool :=
  decide (b.2 ≤ a.2)

/-- agg (lines 113-119): group, sum, sort descending by the summed metric,
keep the first 10.  The engine's default sort kernel fixes no relative order
among groups with equal sums; the embedding realizes one descending-sorted
permutation, and universal theorems about the ranking use only consequences
common to all of them (length, descending sums, membership bounds). -/
def agg (data : Table) (groupCols : List String) (valueCol : String) :
    List (List Value × ℚ) :=
  (sortBy sumGe (groupbySum data groupCols valueCol)).take 10

/-- The rows of the KPIs sheet written by generate_report: four named
metrics. -/
def kpiSheetRows (t m l d : ℚ) : List Row :=
  [ [("Métrica", Value.str "Total acumulado"), ("Valor", Value.num t)],
    [("Métrica", Value.str "Média"), ("Valor", Value.num m)],
    [("Métrica", Value.str "Última leitura"), ("Valor", Value.num l)],
    [("Métrica", Value.str "Variação"), ("Valor", Value.num d)] ]

/-- generate_report (lines 136-153): a two-sheet document, sheet "Dados"
holding the full table (all columns, no index column), sheet "KPIs" holding
the four named metrics.  The spreadsheet serialization itself is the black-box
writer; the document is modelled as the association list of its sheets. -/
def generateReport (dfReport : Table) (t m l d : ℚ) : List (String × Table) :=
  [("Dados", dfReport),
   ("KPIs", Table.mk ["Métrica", "Valor"] (kpiSheetRows t m l d))]

/-- The outcome of the SQL branch of the source selector: either the quiescent
awaiting-input state (no connection, no query, no error), or a query execution
against a built connection URL. -/
inductive SqlOutcome : Type
  | awaitingInput
  | loadQuery (connUrl : String) (q : String)
  deriving DecidableEq, Repr

/-- Lines 36-51: the engine is built only when the required parameters are
present — the sqlite path for the embedded driver, and (user, password, host,
port, database) all non-empty for the network drivers. -/
def buildEngine (dbType sqlitePath dbUser dbPass dbHost dbPort dbName : String) :
    Option String :=
  if dbType = "sqlite" then
    if sqlitePath ≠ "" then some ("sqlite:///" ++ sqlitePath) else none
  else
    if dbUser ≠ "" ∧ dbPass ≠ "" ∧ dbHost ≠ "" ∧ dbPort ≠ "" ∧ dbName ≠ "" then
      some (dbType ++ "://" ++ dbUser ++ ":" ++ dbPass ++ "@" ++ dbHost ++ ":"
        ++ dbPort ++ "/" ++ dbName)
    else none

/-- Lines 52-54 and 162-163: the query only runs when both an engine and a
non-empty query text are present; otherwise the source selector stays in the
awaiting-input placeholder state. -/
def sqlSource (dbType sqlitePath dbUser dbPass dbHost dbPort dbName query : String) :
    SqlOutcome :=
  match buildEngine dbType sqlitePath dbUser dbPass dbHost dbPort dbName with
  | some url => if query ≠ "" then SqlOutcome.loadQuery url query else SqlOutcome.awaitingInput
  | none => SqlOutcome.awaitingInput

/-!
## Concrete tables used by witnesses and counterexamples
-/

/-- Two rows sharing the first grouping value but differing in the second. -/
def exTableC1 : Table :=
  Table.mk ["g1", "g2", "v"]
    [ [("g1", Value.str "A"), ("g2", Value.str "x"), ("v", Value.num 1)],
      [("g1", Value.str "A"), ("g2", Value.str "y"), ("v", Value.num 2)] ]

/-- Three groups with equal summed metric, first appearing in the order
B, A, C (an order that is neither ascending nor descending by key). -/
def exTableC3 : Table :=
  Table.mk ["g", "v"]
    [ [("g", Value.str "B"), ("v", Value.num 10)],
      [("g", Value.str "A"), ("v", Value.num 10)],
      [("g", Value.str "C"), ("v", Value.num 10)] ]

/-- First table loaded (first display cycle). -/
def exTableOld : Table :=
  Table.mk ["d", "v"] [[("d", Value.num 1), ("v", Value.num 3)]]

/-- A different table loaded afterwards (its coercion differs). -/
def exTableNew : Table :=
  Table.mk ["d", "v"] [[("d", Value.num 2), ("v", Value.num 4)]]

/-- Two-row table with distinct times, used to exercise latest/previous. -/
def exTableTwo : Table :=
  Table.mk ["d", "v"]
    [ [("d", Value.num 1), ("v", Value.num 10)],
      [("d", Value.num 2), ("v", Value.num 20)] ]

/-- One-row table. -/
def exTableOne : Table :=
  Table.mk ["d", "v"] [[("d", Value.num 5), ("v", Value.num 7)]]

/-- Three-row table with an all-numeric metric column. -/
def exTableThree : Table :=
  Table.mk ["d", "v"]
    [ [("d", Value.num 1), ("v", Value.num 10)],
      [("d", Value.num 2), ("v", Value.num 20)],
      [("d", Value.num 3), ("v", Value.num 5)] ]

/-- A table with one row whose grouping value is missing. -/
def exTableNull : Table :=
  Table.mk ["g", "v"]
    [ [("g", Value.str "A"), ("v", Value.num 1)],
      [("g", Value.null), ("v", Value.num 2)],
      [("g", Value.str "A"), ("v", Value.num 3)] ]

/-- A table whose second metric entry is missing (NaN in a numeric column). -/
def exTableNullMetric : Table :=
  Table.mk ["d", "v"]
    [ [("d", Value.num 1), ("v", Value.num 1)],
      [("d", Value.num 2), ("v", Value.null)] ]

/-!
## Supporting lemmas
-/

theorem length_filterMap_of_isSome {f : α → Option β} :
    ∀ l : List α, (∀ x ∈ l, (f x).isSome = true) → (l.filterMap f).length = l.length := by
  intro l h
  induction l with
  | nil => rfl
  | cons a l ih =>
    obtain ⟨b, hb⟩ := Option.isSome_iff_exists.mp (h a (by simp))
    rw [List.filterMap_cons, hb, List.length_cons, ih (fun x hx => h x (by simp [hx]))]
    rfl

theorem sortedData_ne_nil {data : Table} {dateCol : String} (h : data.rows ≠ []) :
    sortedData data dateCol ≠ [] := by
  intro h0
  exact h ((sortBy_perm (rowTimeLe dateCol) data.rows).symm.trans (h0 ▸ List.Perm.refl _)).eq_nil

/-!
## The claims
-/

/-- Claim C4 (code bug): the memoized coercion is claimed to agree with the
from-scratch coercion as a function of the current (Table, date_col) pair; it
does not.  The memo keys on the (empty) argument list of get_data, so a cache
warmed on a first table is returned verbatim for a different second table:
the result is the coercion of the old table, not of the current one. -/
theorem C4_stale_cache :
    (getData ((getData none exTableOld "d").2) exTableNew "d").1 ≠ coerceTable exTableNew "d"
    ∧ (getData ((getData none exTableOld "d").2) exTableNew "d").1 = coerceTable exTableOld "d" := by
  constructor
  · decide
  · decide

/-- Claim C7: the report document round-trips — reading back sheet Dados
reproduces the row count and the column list of the written table, and sheet
KPIs holds exactly four named metrics whose values are the total, mean,
latest and delta that were passed in. -/
theorem C7_report_roundtrip (t : Table) (w x y z : ℚ) :
    ∃ dados, (generateReport t w x y z).lookup "Dados" = some dados
      ∧ dados.rows.length = t.rows.length ∧ dados.cols = t.cols
      ∧ ∃ kpis, (generateReport t w x y z).lookup "KPIs" = some kpis
        ∧ kpis.rows.length = 4
        ∧ kpis.rows.map (fun r => (getCell r "Métrica", getCell r "Valor")) =
            [(Value.str "Total acumulado", Value.num w),
             (Value.str "Média", Value.num x),
             (Value.str "Última leitura", Value.num y),
             (Value.str "Variação", Value.num z)] := by
  refine ⟨t, rfl, rfl, rfl,
    Table.mk ["Métrica", "Valor"] (kpiSheetRows w x y z), rfl, rfl, rfl⟩

/-- Claim C8: whenever a required network parameter or the query text is
empty, the SQL source selector stays in the quiescent awaiting-input state —
no connection is attempted and no query runs. -/
theorem C8_sql_awaiting (dbType sqlitePath dbUser dbPass dbHost dbPort dbName query : String)
    (hnet : dbType ≠ "sqlite")
    (h : dbUser = "" ∨ dbPass = "" ∨ dbHost = "" ∨ dbPort = "" ∨ dbName = ""
        ∨ query = "") :
    sqlSource dbType sqlitePath dbUser dbPass dbHost dbPort dbName query =
      SqlOutcome.awaitingInput := by
  unfold sqlSource buildEngine
  rw [if_neg hnet]
  by_cases hc : dbUser ≠ "" ∧ dbPass ≠ "" ∧ dbHost ≠ "" ∧ dbPort ≠ "" ∧ dbName ≠ ""
  · rw [if_pos hc]
    have hq : query = "" := by
      rcases h with h | h | h | h | h | h
      · exact absurd h hc.1
      · exact absurd h hc.2.1
      · exact absurd h hc.2.2.1
      · exact absurd h hc.2.2.2.1
      · exact absurd h hc.2.2.2.2
      · exact h
    simp [hq]
  · rw [if_neg hc]

/-- Witness for C8 at a concrete configuration with an empty password. -/
theorem C8_sql_awaiting_witness :
    ("postgresql" : String) ≠ "sqlite"
    ∧ (("u" : String) = "" ∨ ("" : String) = "" ∨ ("localhost" : String) = ""
        ∨ ("5432" : String) = "" ∨ ("mydb" : String) = "" ∨ ("select 1" : String) = "")
    ∧ sqlSource "postgresql" "" "u" "" "localhost" "5432" "mydb" "select 1" =
        SqlOutcome.awaitingInput :=
  ⟨by decide, Or.inr (Or.inl rfl),
    C8_sql_awaiting "postgresql" "" "u" "" "localhost" "5432" "mydb" "select 1"
      (by decide) (Or.inr (Or.inl rfl))⟩

/-- Claim C9 (implicit safety): on a non-empty table the latest/previous
computation performs no out-of-range access — the summary is produced
(the last-row access succeeds, and the second-to-last access is guarded). -/
theorem C9_index_safety (data : Table) (dateCol valueCol : String)
    (h : data.rows ≠ []) :
    (kpiSummary data dateCol valueCol).isSome = true := by
  have hne : sortedData data dateCol ≠ [] := sortedData_ne_nil h
  obtain ⟨lastRow, hl⟩ := Option.isSome_iff_exists.mp (List.getLast?_isSome.mpr hne)
  simp only [kpiSummary]
  rw [hl]
  rfl

/-- Witness for C9 on a concrete two-row table. -/
theorem C9_index_safety_witness :
    exTableTwo.rows ≠ []
    ∧ (kpiSummary exTableTwo "d" "v").isSome = true :=
  ⟨by decide, C9_index_safety exTableTwo "d" "v" (by decide)⟩

/-- Claim C5: on a one-row table whose metric entry is present, the summary
has previous equal to latest and delta equal to zero.  The hypothesis `hv`
scopes out a missing metric entry, where the program instead propagates NaN
through latest, previous and delta; NaN float comparison semantics are outside
the rational model. -/
theorem C5_single_row (data : Table) (dateCol valueCol : String) (r : Row)
    (h : data.rows = [r])
    (hv : (asNum (getCell r valueCol)).isSome = true) :
    ∃ k, kpiSummary data dateCol valueCol = some k
      ∧ k.prev = k.latest ∧ k.delta = 0 := by
  obtain ⟨cols, rows⟩ := data
  have h2 : rows = [r] := h
  subst h2
  exact ⟨_, rfl, rfl, sub_self _⟩

/-- Witness for C5 on a concrete one-row table with a numeric metric entry. -/
theorem C5_single_row_witness :
    exTableOne.rows = [[("d", Value.num 5), ("v", Value.num 7)]]
    ∧ (asNum (getCell [("d", Value.num 5), ("v", Value.num 7)] "v")).isSome = true
    ∧ ∃ k, kpiSummary exTableOne "d" "v" = some k
      ∧ k.prev = k.latest ∧ k.delta = 0 :=
  ⟨by decide, by decide,
    C5_single_row exTableOne "d" "v" [("d", Value.num 5), ("v", Value.num 7)]
      (by decide) (by decide)⟩

/-- Claim C6 (counterexample): on a two-row table whose second metric entry is
missing, the engine computes mean = 1 (it divides the sum by the count of
non-missing entries) while total / row_count = 1/2, so the claimed identity
fails as stated. -/
theorem C6_counterexample :
    mean exTableNullMetric "v" ≠
      total exTableNullMetric "v" / (exTableNullMetric.rows.length : ℚ)
    ∧ mean exTableNullMetric "v" = 1
    ∧ total exTableNullMetric "v" = 1
    ∧ exTableNullMetric.rows.length = 2 := by
  have ht : total exTableNullMetric "v" = 1 := by decide
  have h1 : (colNums exTableNullMetric "v").length = 1 := by decide
  have hm : mean exTableNullMetric "v" = 1 := by
    unfold mean
    rw [ht, h1, Nat.cast_one, div_one]
  refine ⟨?_, hm, ht, by decide⟩
  rw [hm, ht]
  have h2 : exTableNullMetric.rows.length = 2 := by decide
  rw [h2]
  intro hc
  norm_num at hc

/-- Claim C6 (amended): on a table with at least one row, mean equals total
divided by the count of non-missing metric entries; in particular, whenever
every metric entry is present (numeric), mean equals total divided by the row
count as the claim states. -/
theorem C6_mean_total (t : Table) (valueCol : String)
    (h1 : t.rows ≠ [])
    (h2 : ∀ r ∈ t.rows, (asNum (getCell r valueCol)).isSome = true) :
    mean t valueCol = total t valueCol / (t.rows.length : ℚ) := by
  rw [mean]
  unfold colNums
  rw [length_filterMap_of_isSome t.rows h2]

/-- Witness for C6 on a concrete three-row table. -/
theorem C6_mean_total_witness :
    exTableThree.rows ≠ []
    ∧ (∀ r ∈ exTableThree.rows, (asNum (getCell r "v")).isSome = true)
    ∧ mean exTableThree "v" = total exTableThree "v" / (exTableThree.rows.length : ℚ) :=
  ⟨by decide, by decide,
    C6_mean_total exTableThree "v" (by decide) (by decide)⟩

theorem map_fst_groupbySum (t : Table) (groupCols : List String) (valueCol : String) :
    (groupbySum t groupCols valueCol).map Prod.fst =
      sortBy listValLe (uniqueFirst [] (t.rows.filterMap (rowKey groupCols))) := by
  rw [groupbySum, List.map_map]
  exact List.map_id _

theorem mem_agg_mem_groupbySum {t : Table} {groupCols : List String} {valueCol : String}
    {p : List Value × ℚ} (hp : p ∈ agg t groupCols valueCol) :
    p ∈ groupbySum t groupCols valueCol :=
  ((sortBy_perm sumGe (groupbySum t groupCols valueCol)).mem_iff).mp
    (List.take_subset 10 _ hp)

/-- Claim C1 (counterexample): with the two grouping columns g1 and g2
selected, the ranking holds two distinct entries whose g1-values coincide
(there is exactly one distinct g1-value in the table), so rows are not grouped
by equality of the first grouping column alone. -/
theorem C1_counterexample :
    agg exTableC1 ["g1", "g2"] "v" =
      [([Value.str "A", Value.str "y"], 2), ([Value.str "A", Value.str "x"], 1)]
    ∧ ¬ (((agg exTableC1 ["g1", "g2"] "v").map (fun p => p.1.head?)).Nodup)
    ∧ (uniqueFirst [] (exTableC1.rows.map (fun r => getCell r "g1"))).length = 1 :=
  ⟨by decide, by decide, by decide⟩

/-- Claim C1 (amended): the ranking groups rows by equality of the tuple of
values of all selected grouping columns — every ranking entry carries the
metric sum over exactly the rows whose full key tuple equals its key and comes
from some row of the table, the keys are pairwise distinct, and every non-null
row key of the table appears among the grouped sums before truncation. -/
theorem C1_group_by_all_columns (t : Table) (groupCols : List String)
    (valueCol : String) (hg : groupCols ≠ []) :
    (∀ p ∈ agg t groupCols valueCol,
        p.2 = groupSum t.rows groupCols valueCol p.1
        ∧ ∃ r ∈ t.rows, rowKey groupCols r = some p.1)
    ∧ ((agg t groupCols valueCol).map Prod.fst).Nodup
    ∧ ∀ r ∈ t.rows, ∀ k, rowKey groupCols r = some k →
        k ∈ (groupbySum t groupCols valueCol).map Prod.fst := by
  refine ⟨?_, ?_, ?_⟩
  · intro p hp
    obtain ⟨k, hk, hpk⟩ := List.mem_map.mp (mem_agg_mem_groupbySum hp)
    have hk2 : k ∈ uniqueFirst [] (t.rows.filterMap (rowKey groupCols)) :=
      ((sortBy_perm listValLe _).mem_iff).mp hk
    obtain ⟨r, hr, hrk⟩ := List.mem_filterMap.mp (mem_uniqueFirst.mp hk2).1
    constructor
    · rw [← hpk]
    · exact ⟨r, hr, by rw [hrk, ← hpk]⟩
  · have h1 : ((groupbySum t groupCols valueCol).map Prod.fst).Nodup := by
      rw [map_fst_groupbySum]
      exact ((sortBy_perm listValLe _).nodup_iff).mpr (nodup_uniqueFirst _ _)
    have h2 : ((sortBy sumGe (groupbySum t groupCols valueCol)).map Prod.fst).Nodup :=
      (((sortBy_perm sumGe _).map Prod.fst).nodup_iff).mpr h1
    rw [agg, List.map_take]
    exact h2.sublist (List.take_sublist 10 _)
  · intro r hr k hk
    rw [map_fst_groupbySum]
    exact ((sortBy_perm listValLe _).mem_iff).mpr
      (mem_uniqueFirst.mpr ⟨List.mem_filterMap.mpr ⟨r, hr, hk⟩, by simp⟩)

/-- Witness for the amended claim C1 on a concrete two-column grouping. -/
theorem C1_group_by_all_columns_witness :
    (["g1", "g2"] : List String) ≠ []
    ∧ ((∀ p ∈ agg exTableC1 ["g1", "g2"] "v",
        p.2 = groupSum exTableC1.rows ["g1", "g2"] "v" p.1
        ∧ ∃ r ∈ exTableC1.rows, rowKey ["g1", "g2"] r = some p.1)
      ∧ ((agg exTableC1 ["g1", "g2"] "v").map Prod.fst).Nodup
      ∧ ∀ r ∈ exTableC1.rows, ∀ k, rowKey ["g1", "g2"] r = some k →
          k ∈ (groupbySum exTableC1 ["g1", "g2"] "v").map Prod.fst) :=
  ⟨by decide, C1_group_by_all_columns exTableC1 ["g1", "g2"] "v" (by decide)⟩

theorem sumGe_total (a b : List Value × ℚ) :
    sumGe a b = true ∨ sumGe b a = true := by
  rcases le_total a.2 b.2 with h | h
  · right
    exact decide_eq_true h
  · left
    exact decide_eq_true h

theorem sumGe_trans (a b c : List Value × ℚ)
    (h1 : sumGe a b = true) (h2 : sumGe b c = true) : sumGe a c = true := by
  rw [sumGe, decide_eq_true_eq] at h1 h2 ⊢
  exact le_trans h2 h1

/-- Claim C3 (counterexample): three groups with equal summed metric, first
appearing in the table in the order B, A, C; the ranking lists them as
A, B, C (the ascending key order produced by groupby), not in first-appearance
order. -/
theorem C3_counterexample :
    agg exTableC3 ["g"] "v" =
      [([Value.str "A"], 10), ([Value.str "B"], 10), ([Value.str "C"], 10)]
    ∧ uniqueFirst [] (exTableC3.rows.filterMap (rowKey ["g"])) =
        [[Value.str "B"], [Value.str "A"], [Value.str "C"]]
    ∧ (agg exTableC3 ["g"] "v").map Prod.fst ≠
        uniqueFirst [] (exTableC3.rows.filterMap (rowKey ["g"])) :=
  ⟨by decide, by decide, by decide⟩

/-- Claim C3 (amended): the ranking has at most 10 rows, is sorted
non-increasing by summed metric, and every group it keeps has summed metric at
least that of every group it omits.  The first-appearance tie order asserted
by the claim is not preserved (see the counterexample); which order tied sums
do take is left to the engine's sort kernel, which fixes none, so only the
kernel-independent guarantees are stated. -/
theorem C3_ranking_sorted (t : Table) (groupCols : List String)
    (valueCol : String) (hg : groupCols ≠ []) :
    (agg t groupCols valueCol).length ≤ 10
    ∧ (agg t groupCols valueCol).Pairwise (fun a b => b.2 ≤ a.2)
    ∧ ∀ p ∈ agg t groupCols valueCol,
        ∀ q ∈ groupbySum t groupCols valueCol,
          q ∉ agg t groupCols valueCol → q.2 ≤ p.2 := by
  have hpair : (sortBy sumGe (groupbySum t groupCols valueCol)).Pairwise
      (fun a b => b.2 ≤ a.2) := by
    refine (sortBy_pairwise sumGe_total sumGe_trans _).imp ?_
    intro a b hab
    exact of_decide_eq_true hab
  refine ⟨List.length_take_le 10 _, hpair.sublist (List.take_sublist 10 _), ?_⟩
  intro p hp q hq hq2
  have hqs : q ∈ sortBy sumGe (groupbySum t groupCols valueCol) :=
    ((sortBy_perm sumGe _).mem_iff).mpr hq
  have hsplit := List.take_append_drop 10 (sortBy sumGe (groupbySum t groupCols valueCol))
  have hqd : q ∈ (sortBy sumGe (groupbySum t groupCols valueCol)).drop 10 := by
    rcases List.mem_append.mp (by rw [hsplit]; exact hqs) with h1 | h1
    · exact absurd h1 hq2
    · exact h1
  have hpair2 : ((sortBy sumGe (groupbySum t groupCols valueCol)).take 10 ++
      (sortBy sumGe (groupbySum t groupCols valueCol)).drop 10).Pairwise
      (fun a b => b.2 ≤ a.2) := by
    rw [hsplit]
    exact hpair
  exact (List.pairwise_append.mp hpair2).2.2 p hp q hqd

/-- Witness for the amended claim C3 on a concrete grouping. -/
theorem C3_ranking_sorted_witness :
    (["g"] : List String) ≠ []
    ∧ ((agg exTableC3 ["g"] "v").length ≤ 10
      ∧ (agg exTableC3 ["g"] "v").Pairwise (fun a b => b.2 ≤ a.2)
      ∧ ∀ p ∈ agg exTableC3 ["g"] "v",
          ∀ q ∈ groupbySum exTableC3 ["g"] "v",
            q ∉ agg exTableC3 ["g"] "v" → q.2 ≤ p.2) :=
  ⟨by decide, C3_ranking_sorted exTableC3 ["g"] "v" (by decide)⟩

theorem filterMap_rowKey_filter (groupCols : List String) (rows : List Row) :
    (rows.filter (fun r => (rowKey groupCols r).isSome)).filterMap (rowKey groupCols)
      = rows.filterMap (rowKey groupCols) := by
  induction rows with
  | nil => rfl
  | cons r rows ih =>
    cases hk : rowKey groupCols r with
    | none => simp [List.filter_cons, List.filterMap_cons, hk, ih]
    | some k => simp [List.filter_cons, List.filterMap_cons, hk, ih]

theorem filter_key_filter (groupCols : List String) (rows : List Row) (k : List Value) :
    (rows.filter (fun r => (rowKey groupCols r).isSome)).filter
        (fun r => rowKey groupCols r == some k)
      = rows.filter (fun r => rowKey groupCols r == some k) := by
  induction rows with
  | nil => rfl
  | cons r rows ih =>
    cases hk : rowKey groupCols r with
    | none => simp [List.filter_cons, hk, ih]
    | some k2 => simp [List.filter_cons, hk, ih]

/-- Claim C10 (implicit): rows whose value in some grouping column is missing
are silently excluded from the ranking — dropping them changes nothing in the
ranking — while their metric values still count towards the KPI total, which
splits as the total over rows with a full key plus the total over the dropped
rows. -/
theorem C10_null_group_rows (t : Table) (groupCols : List String)
    (valueCol : String) (hg : groupCols ≠ []) :
    agg t groupCols valueCol =
      agg (Table.mk t.cols (t.rows.filter (fun r => (rowKey groupCols r).isSome)))
        groupCols valueCol
    ∧ total t valueCol =
        total (Table.mk t.cols
          (t.rows.filter (fun r => (rowKey groupCols r).isSome))) valueCol
        + total (Table.mk t.cols
          (t.rows.filter (fun r => !(rowKey groupCols r).isSome))) valueCol := by
  constructor
  · have hgb : groupbySum (Table.mk t.cols
        (t.rows.filter (fun r => (rowKey groupCols r).isSome))) groupCols valueCol
        = groupbySum t groupCols valueCol := by
      rw [groupbySum, groupbySum]
      dsimp only
      rw [filterMap_rowKey_filter]
      refine List.map_congr_left ?_
      intro k _
      rw [groupSum, groupSum, filter_key_filter]
    rw [agg, agg, hgb]
  · rw [total, total, total, qSum_eq_sum, qSum_eq_sum, qSum_eq_sum]
    have hperm := List.filter_append_perm
      (fun r => (rowKey groupCols r).isSome) t.rows
    have hsum := (hperm.filterMap
      (fun r => asNum (getCell r valueCol))).sum_eq
    rw [List.filterMap_append, List.sum_append] at hsum
    exact hsum.symm

/-- Witness for C10 on a concrete table with a null grouping value. -/
theorem C10_null_group_rows_witness :
    (["g"] : List String) ≠ []
    ∧ (agg exTableNull ["g"] "v" =
        agg (Table.mk exTableNull.cols
          (exTableNull.rows.filter (fun r => (rowKey ["g"] r).isSome))) ["g"] "v"
      ∧ total exTableNull "v" =
          total (Table.mk exTableNull.cols
            (exTableNull.rows.filter (fun r => (rowKey ["g"] r).isSome))) "v"
          + total (Table.mk exTableNull.cols
            (exTableNull.rows.filter (fun r => !(rowKey ["g"] r).isSome))) "v") :=
  ⟨by decide, C10_null_group_rows exTableNull ["g"] "v" (by decide)⟩

end Dash
